import Mathlib

/-!
Verification of the zensols.latidx LaTeX indexing engine.

This file gives a shallow embedding of the artifact-extraction and
dependency-resolution core found in `zensols/latidx/index.py` and
`zensols/latidx/domain.py`, and proves properties of that embedding.

The embedding covers:
* the typed node sequences produced by the external tokenizer (`LNode`),
* the macro extractor (`parsePackage`, `parseCommand`, `extract`,
  mirroring `LatexFile._parse_package`, `LatexFile._parse_command`,
  `LatexFile._get_package_objects`),
* the document-level cache discipline (`readContent`, `getPackageObjects`),
* the memoized dependency resolver (`resolveDoc`, `resolveAll`, mirroring
  `LatexProject._get_dependencies` and `LatexProject.dependencies`), with
  node identity made explicit through an arena indexed by allocation order,
* the dependency-node tree operations (`LDep.getFiles`, `baseDir`,
  `orphansOf`, mirroring `LatexDependency.get_files`,
  `LatexDependency.base_dir`, `LatexDependency.orphans`).

Python exceptions are modelled with `Except PyErr`; uncaught exceptions
escaping a scan appear as `Except.error` results, while exceptions caught by
the `usepackage` branch are appended to the failure list, exactly as in the
source.
-/

/-- One node of the parsed LaTeX token tree, as produced by the external
tokenizer (`pylatexenc`): a macro occurrence, a braced group, a character
run, or a comment.  Every node carries its absolute character offset `pos`
and its length `len` in the document text. -/
inductive LNode where
  | macroN (name : String) (pos : Nat) (len : Nat)
  | groupN (children : List LNode) (pos : Nat) (len : Nat)
  | charsN (chars : String) (pos : Nat) (len : Nat)
  | commentN (pos : Nat) (len : Nat)

/-- The absolute character offset of a node (the `pos` attribute, present on
every node kind). -/
def LNode.position : LNode → Nat
  | .macroN _ p _ => p
  | .groupN _ p _ => p
  | .charsN _ p _ => p
  | .commentN p _ => p

/-- Whether a node is a group node (`isinstance(n, LatexGroupNode)`). -/
def LNode.isGroup : LNode → Bool
  | .groupN .. => true
  | _ => false

/-- Whether a node is a group or comment node: the stop condition of the
argument-specification scan in `LatexFile._parse_command.get_char_nodes`. -/
def LNode.isGroupOrComment : LNode → Bool
  | .groupN .. => true
  | .commentN .. => true
  | _ => false

/-- The kinds of Python exception the extractor can raise: the
application-level `ParseError`, and the built-in `IndexError` (list index out
of range) and `AttributeError` (attribute access on `None`). -/
inductive PyErr where
  | parseError
  | indexError
  | attributeError
deriving DecidableEq

/-- Python string slice `s[a:b]` by character index. -/
def strSlice (s : String) (a b : Nat) : String :=
  String.mk ((s.toList.drop a).take (b - a))

/-- Python list indexing `nodes[i]`: the element, or `IndexError` when out of
range (negative indices never arise in the extractor). -/
def getNode (nodes : List LNode) (i : Nat) : Except PyErr LNode :=
  match nodes.get? i with
  | some n => .ok n
  | none => .error .indexError

/-- A parsed `\usepackage` occurrence (`UsePackage` in `domain.py`): the
offset of the macro node, the options text when present, and the package
name with the offset and length of its character node. -/
structure UsePackage where
  macroPos : Nat
  options : Option String
  name : String
  namePos : Nat
  nameLen : Nat
deriving DecidableEq

/-- `UsePackage.span`: from the start of the macro node to one past the end
of the name node. -/
def UsePackage.span (u : UsePackage) : Nat × Nat :=
  (u.macroPos, u.namePos + u.nameLen + 1)

/-- A parsed macro definition (`NewCommand` in `domain.py`): offset of the
`\newcommand`-family node, the defined macro's name, the consumed
argument-specification nodes, the body group's `(pos, len)` when present, and
the raw definition text. -/
structure NewCommand where
  ncPos : Nat
  name : String
  argSpecNodes : List LNode
  body : Option (Nat × Nat)
  definition : String

/-- `NewCommand.span` from `domain.py`: `(newcommand_node.pos,
body_node.pos + body_node.len)`.  The source reads `.pos` and `.len` off
`body_node` unconditionally, so when the body is absent (`body_node` is
`None`) the attribute access raises `AttributeError`. -/
def ncSpan (ncPos : Nat) (body : Option (Nat × Nat)) : Except PyErr (Nat × Nat) :=
  match body with
  | none => .error .attributeError
  | some (p, l) => .ok (ncPos, p + l)

/-- The bounded reassignment loop at the top of
`LatexFile._parse_package.get_char_node`: `for i in range(5)`, breaking at
the first group node, otherwise re-reading `nodes[nix + i]`.  The first
argument counts the remaining iterations, the second is the current `i`. -/
def gcnStep (nodes : List LNode) (nix : Nat) : Nat → Nat → LNode → Except PyErr LNode
  | 0, _, n => .ok n
  | k + 1, i, n =>
    if n.isGroup then .ok n
    else
      match nodes.get? (nix + i) with
      | none => .error .indexError
      | some n2 => gcnStep nodes nix k (i + 1) n2

/-- `LatexFile._parse_package.get_char_node`: find a group node (via
`gcnStep`), then take the head of its child list, which must be a character
node; returns its text, offset and length. -/
def getCharNode (nodes : List LNode) (nix : Nat) (n0 : LNode) :
    Except PyErr (String × Nat × Nat) := do
  let nf ← gcnStep nodes nix 5 0 n0
  match nf with
  | .groupN children _ _ =>
    match children with
    | [] => .error .indexError
    | cn :: _ =>
      match cn with
      | .charsN s p l => .ok (s, p, l)
      | _ => .error .parseError
  | _ => .error .parseError

/-- `LatexFile._parse_package`: parse one `\usepackage` occurrence at index
`nix`.  The lookahead `nodes[nix + 1]` is either the name group, or a
character run holding the options text followed by the name group at
`nodes[nix + 2]`; any other shape raises `ParseError`. -/
def parsePackage (nodes : List LNode) (nix : Nat) (n : LNode) :
    Except PyErr UsePackage := do
  let nn ← getNode nodes (nix + 1)
  match nn with
  | .groupN .. => do
    let (s, p, l) ← getCharNode nodes nix nn
    .ok ⟨n.position, none, s, p, l⟩
  | .charsN opts _ _ => do
    let n2 ← getNode nodes (nix + 2)
    let (s, p, l) ← getCharNode nodes nix n2
    .ok ⟨n.position, some opts, s, p, l⟩
  | _ => .error .parseError

/-- `LatexFile._parse_command.get_macro_node` applied to a group's child
list: the head must exist (`nodelist[0]`, else `IndexError`) and be a macro
node (else `ParseError`); returns the inner macro's name. -/
def getMacroName (children : List LNode) : Except PyErr String :=
  match children with
  | [] => .error .indexError
  | c :: _ =>
    match c with
    | .macroN nm _ _ => .ok nm
    | _ => .error .parseError

/-- `LatexFile._parse_command.get_char_nodes` over the remaining node list:
collect consecutive nodes that are neither group nor comment, returning the
stop index and the collected nodes. -/
def getCharNodesAux : List LNode → Nat → Nat × List LNode
  | [], nix => (nix, [])
  | n :: rest, nix =>
    if n.isGroupOrComment then (nix, [])
    else
      let (j, cs) := getCharNodesAux rest (nix + 1)
      (j, n :: cs)

/-- `get_char_nodes(nix)` on the full node list. -/
def getCharNodes (nodes : List LNode) (nix : Nat) : Nat × List LNode :=
  getCharNodesAux (nodes.drop nix) nix

/-- `LatexFile._parse_command`: parse one `\newcommand`-family occurrence at
index `nix`.  When the lookahead `nodes[nix + 1]` is a group, the group's
first child names the macro, the arg-spec nodes are scanned from
`nix + 2`, the node at the stop position is the body when it is a group
(`None` otherwise), and `post_create` computes the span and slices the raw
definition text; a `None` body makes the span computation raise
`AttributeError`.  When the lookahead is not a group the occurrence is
skipped with an informational log entry (`Except.ok none`). -/
def parseCommand (content : String) (nodes : List LNode) (nix : Nat) :
    Except PyErr (Option NewCommand) := do
  let nn ← getNode nodes (nix + 1)
  match nn with
  | .groupN children _ _ => do
    let mn ← getMacroName children
    let outer ← getNode nodes nix
    let (nix2, cnodes) := getCharNodes nodes (nix + 2)
    let bn0 ← getNode nodes nix2
    let body : Option (Nat × Nat) :=
      match bn0 with
      | .groupN _ p l => some (p, l)
      | _ => none
    let sp ← ncSpan outer.position body
    .ok (some ⟨outer.position, mn, cnodes, body, strSlice content sp.1 sp.2⟩)
  | _ => .ok none

/-- Python `str.endswith`: whether `suf` is a suffix of `s` (computed over
the character lists so that it evaluates by kernel reduction). -/
def strEndsWith (s suf : String) : Bool :=
  List.isSuffixOf suf.toList s.toList

/-- Python `dict` insertion `m[k] = v`: replace the value in place when the
key exists, otherwise append the pair. -/
def dictUpsert {α : Type} (m : List (String × α)) (k : String) (v : α) :
    List (String × α) :=
  match m with
  | [] => [(k, v)]
  | (k1, v1) :: rest =>
    if k1 == k then (k1, v) :: rest else (k1, v1) :: dictUpsert rest k v

/-- The scanning loop of `LatexFile._get_package_objects` over the remaining
nodes (`rem = nodes.drop nix`).  A failed `usepackage` parse is caught and
appended to the failure list and the scan continues; a `*command` parse is
not guarded, so an exception there escapes as `Except.error`, with the
failures accumulated so far still recorded. -/
def extractGo (content : String) (nodes : List LNode) :
    List LNode → Nat → List (String × UsePackage) → List (String × NewCommand) →
    List PyErr →
    Except PyErr (List (String × UsePackage) × List (String × NewCommand)) × List PyErr
  | [], _, ups, ncs, fails => (.ok (ups, ncs), fails)
  | n :: rest, nix, ups, ncs, fails =>
    match n with
    | .macroN mname _ _ =>
      if mname == "usepackage" then
        match parsePackage nodes nix n with
        | .error e => extractGo content nodes rest (nix + 1) ups ncs (fails ++ [e])
        | .ok up => extractGo content nodes rest (nix + 1) (dictUpsert ups up.name up) ncs fails
      else if strEndsWith mname ("command") then
        match parseCommand content nodes nix with
        | .error e => (.error e, fails)
        | .ok none => extractGo content nodes rest (nix + 1) ups ncs fails
        | .ok (some nc) =>
          extractGo content nodes rest (nix + 1) ups (dictUpsert ncs nc.name nc) fails
      else extractGo content nodes rest (nix + 1) ups ncs fails
    | _ => extractGo content nodes rest (nix + 1) ups ncs fails

/-- `LatexFile._get_package_objects`: one linear pass over the node sequence,
producing the `usepackage` and `newcommand` mappings together with the
recorded failures. -/
def extract (content : String) (nodes : List LNode) :
    Except PyErr (List (String × UsePackage) × List (String × NewCommand)) × List PyErr :=
  extractGo content nodes nodes 0 [] [] []

/-! ## Document-level caching (`LatexFile.content`, `_get_package_objects`) -/

/-- Modelled from the spec: the compute-once cache discipline of the
`persisted` decorator (from the external `zensols.persist` package, not under
`src/`): a cached field is an explicit `Option`, computed on first access and
never recomputed; the document's text is read from storage at most once.
`readCount` counts actual storage reads. -/
structure DocState where
  contentCache : Option String
  pkgCache : Option (List (String × UsePackage) × List (String × NewCommand))
  fails : List PyErr
  readCount : Nat

/-- The initial state of a freshly constructed document: nothing cached, no
failures, no reads performed. -/
def DocState.init : DocState := ⟨none, none, [], 0⟩

/-- `LatexFile.content`: return the cached text, or read it from storage
(`text` is what the file holds) and cache it. -/
def readContent (text : String) (st : DocState) : String × DocState :=
  match st.contentCache with
  | some c => (c, st)
  | none => (text, { st with contentCache := some text, readCount := st.readCount + 1 })

/-- `LatexFile._get_package_objects` under the `persisted` cache: on a cache
hit return the stored pair unchanged; otherwise read the content, tokenize it
(`nodesOf` stands for the external `LatexWalker`), run the extraction pass,
append the recorded failures, and cache the pair only when no exception
escaped (a raising property is not cached). -/
def getPackageObjects (text : String) (nodesOf : String → List LNode) (st : DocState) :
    Except PyErr (List (String × UsePackage) × List (String × NewCommand)) × DocState :=
  match st.pkgCache with
  | some r => (.ok r, st)
  | none =>
    let (c, st1) := readContent text st
    let (res, efails) := extract c (nodesOf c)
    let st2 := { st1 with fails := st1.fails ++ efails }
    match res with
    | .ok r => (.ok r, { st2 with pkgCache := some r })
    | .error e => (.error e, st2)

/-! ## Dependency resolution (`LatexProject._get_dependencies`,
`LatexProject.dependencies`)

A `LatexDependency` node is identified by the index at which it was
allocated in an arena, so that "the same node instance" is expressible: the
Python memo dict `deps` maps a document name to its node, the node's
`targets` dict maps a lookup key to a child node or `None`.  Here the arena
holds the nodes in allocation order and `targets` stores child indices. -/

/-- A document as the resolver sees it: its base name and the names of its
(successfully parsed) `usepackage` imports in declaration order. -/
structure SDoc where
  name : String
  imports : List String
deriving DecidableEq

/-- One dependency node: the source document's name and the `targets`
mapping from lookup key to child node index (`none` is the absence marker
for an orphan import). -/
structure DepNode where
  source : String
  targets : List (String × Option Nat)
deriving DecidableEq

/-- The state of one resolution run: the arena of allocated nodes (index =
allocation order) and the shared memo mapping document name to node index
(`deps` in `LatexProject.dependencies`). -/
structure ResState where
  arena : List DepNode
  memo : List (String × Nat)
deriving DecidableEq

/-- `deps.get(name)`: first memo entry for the name, if any. -/
def lookupMemo (st : ResState) (k : String) : Option Nat :=
  (st.memo.find? (fun p => p.1 == k)).map (fun p => p.2)

/-- In-place list update at an index (Python mutates the node stored in the
arena). -/
def listModify {α : Type} : List α → Nat → (α → α) → List α
  | [], _, _ => []
  | a :: rest, 0, f => f a :: rest
  | a :: rest, i + 1, f => a :: listModify rest i f

/-- Allocate the node for a newly visited document and insert it into the
memo *before* its imports are expanded (`deps[src.name] = dep` right after
`dep = LatexDependency(src, src_deps)`). -/
def allocNode (st : ResState) (nm : String) : ResState :=
  ⟨st.arena ++ [⟨nm, []⟩], st.memo ++ [(nm, st.arena.length)]⟩

/-- `src_deps[targ_sty] = ...`: record one target entry on node `id`. -/
def addTarget (st : ResState) (id : Nat) (key : String) (v : Option Nat) : ResState :=
  ⟨listModify st.arena id (fun nd => ⟨nd.source, dictUpsert nd.targets key v⟩), st.memo⟩

/-- `LatexProject.files_by_name`: a dict built from `(f.name, f)` pairs, so a
later file with the same name overwrites an earlier one. -/
def filesByName (files : List SDoc) : List (String × SDoc) :=
  files.foldl (fun m f => dictUpsert m f.name f) []

/-- `self.files_by_name.get(targ_sty)`. -/
def findDoc (files : List SDoc) (key : String) : Option SDoc :=
  ((filesByName files).find? (fun p => p.1 == key)).map (fun p => p.2)

/-- The import-expansion loop of `LatexProject._get_dependencies`: for
each imported name, look up `name + ".sty"` among the project's files; store the
absence marker when missing, otherwise resolve the target document through
`rec` (the recursive call, carrying the fuel) and store its node index. -/
def resolveGo (files : List SDoc) (rec : SDoc → ResState → Option (Nat × ResState))
    (id : Nat) : List String → ResState → Option ResState
  | [], st => some st
  | imp :: rest, st =>
    let key := imp ++ ".sty"
    match findDoc files key with
    | none => resolveGo files rec id rest (addTarget st id key none)
    | some targ =>
      match rec targ st with
      | none => none
      | some (cid, st2) => resolveGo files rec id rest (addTarget st2 id key (some cid))

/-- `LatexProject._get_dependencies`: memoized recursive expansion.  A memo
hit returns the already-allocated node; a miss allocates the node, inserts it
into the memo immediately, and only then expands the imports.  The Python
recursion carries no fuel; the `fuel` argument makes the recursion
structural, and `resolveDoc_ok` below proves that `files.length + 1` fuel
always suffices, which is the termination argument for the source. -/
def resolveDoc (files : List SDoc) : Nat → SDoc → ResState → Option (Nat × ResState)
  | 0, _, _ => none
  | fuel + 1, src, st =>
    match lookupMemo st src.name with
    | some i => some (i, st)
    | none =>
      let id := st.arena.length
      let st1 := allocNode st src.name
      match resolveGo files (resolveDoc files fuel) id src.imports st1 with
      | none => none
      | some st2 => some (id, st2)

/-- The loop body of `LatexProject.dependencies`: resolve every file of the
project against the one shared memo. -/
def resolveAll (files : List SDoc) : Option ResState :=
  files.foldl
    (fun acc f =>
      acc.bind (fun st => (resolveDoc files (files.length + 1) f st).map (fun p => p.2)))
    (some ⟨[], []⟩)

/-- The synthesized root node's `targets`:
`LatexDependency('root', frozendict(deps))` wraps the whole memo map, every
value being an allocated node (never the absence marker). -/
def rootTargets (st : ResState) : List (String × Option Nat) :=
  st.memo.map (fun p => (p.1, (some p.2 : Option Nat)))

/-- `LatexDependency.orphans` over a `targets` mapping: the keys whose value
is the absence marker. -/
def orphansOf (targets : List (String × Option Nat)) : List String :=
  (targets.filter (fun p => p.2.isNone)).map (fun p => p.1)

/-- The key list of the root node produced by `LatexProject.dependencies`
(empty when resolution runs out of fuel, which `resolveAll_ok` rules out). -/
def rootKeyList (files : List SDoc) : List String :=
  match resolveAll files with
  | some st => (rootTargets st).map (fun p => p.1)
  | none => []

/-! ## Dependency-node trees and base-directory normalization
(`LatexDependency.get_files`, `LatexDependency.base_dir`)

For `get_files` and `base_dir` the node graph is taken as the finite object
tree the Python code walks (the walk itself carries no cycle protection).
Paths are modelled as their `parts` lists; an absolute path starts with the
segment `"/"`, exactly as `pathlib` reports `parts` for absolute paths. -/

/-- A filesystem path as its list of parts (`pathlib.PurePath.parts`). -/
abbrev LPath := List String

/-- `Path.absolute()`: prepend the working directory's parts to a relative
path; an absolute path is returned unchanged. -/
def pabs (cwd : LPath) (p : LPath) : LPath :=
  if p.head? = some ("/") then p else cwd ++ p

/-- A dependency node as `LatexDependency` stores it: the source document's
path (`none` for the `'root'` marker) and the targets mapping, whose values
are child nodes or the absence marker. -/
inductive LDep where
  | mk (source : Option LPath) (targets : List (String × Option LDep))

/-- The `source` component of a node. -/
def LDep.source : LDep → Option LPath
  | .mk s _ => s

/-- The `targets` component of a node. -/
def LDep.targets : LDep → List (String × Option LDep)
  | .mk _ t => t

mutual
/-- `LatexDependency.get_files`: the source path (omitted for the root
marker) followed by the files of all non-absent targets, recursively. -/
def LDep.getFiles : LDep → List LPath
  | .mk none tgts => getFilesT tgts
  | .mk (some p) tgts => p :: getFilesT tgts

/-- `get_files` chained over a targets list, skipping absence markers. -/
def getFilesT : List (String × Option LDep) → List LPath
  | [] => []
  | (_, none) :: rest => getFilesT rest
  | (_, some d) :: rest => d.getFiles ++ getFilesT rest
end

/-- Stable insertion into a list sorted by number of path parts (the
comparison key of the `sorted` call in `base_dir`). -/
def insertByLen (p : LPath) : List LPath → List LPath
  | [] => [p]
  | q :: qs => if p.length < q.length then p :: q :: qs else q :: insertByLen p qs

/-- `sorted(paths, key=lambda p: len(p.parts))`: stable sort by part count. -/
def sortByLen : List LPath → List LPath
  | [] => []
  | p :: ps => insertByLen p (sortByLen ps)

/-- The `while` loop inside `base_dir`: walk `rel` upward (dropping the last
part) while it has more than one part, stopping at the first ancestor that
`base` is relative to; the loop result is the final `rel`, which the caller
assigns to `base`.  The counter bounds the iterations; `rel.length` always
suffices because each step shortens `rel` by one part. -/
def walkUpAux : Nat → LPath → LPath → LPath
  | 0, _, rel => rel
  | k + 1, base, rel =>
    if 1 < rel.length then
      if rel.isPrefixOf base then rel else walkUpAux k base rel.dropLast
    else rel

/-- One iteration of the `for rel in files` loop body of `base_dir`:
`base.is_relative_to(rel)` is prefix-of on parts. -/
def walkUp (base rel : LPath) : LPath :=
  walkUpAux rel.length base rel

/-- `LatexDependency.base_dir`: `None` for the root marker; otherwise sort
the reachable files by part count and fold the upward walk over them,
starting from the source's (possibly relative) path, absolutizing each file
against the working directory `cwd`. -/
def baseDir (cwd : LPath) : LDep → Option LPath
  | .mk none _ => none
  | .mk (some srcPath) tgts =>
    let files := sortByLen (LDep.getFiles (.mk (some srcPath) tgts))
    if files.isEmpty then none
    else some (files.foldl (fun base rel => walkUp base (pabs cwd rel)) srcPath)

/-- The longest common prefix of two part lists: the "deepest common
ancestor" path of two absolute paths. -/
def lcp : LPath → LPath → LPath
  | a :: as, b :: bs => if a = b then a :: lcp as bs else []
  | _, _ => []

/-! ## Verification-side definitions: scenario inputs and the resolver
invariant -/

/-- The distinct document names of a project (`files_by_name` key set). -/
def namesOf (files : List SDoc) : List String :=
  (files.map (fun f => f.name)).dedup

/-- The number of project document names not yet memoized: the quantity the
recursion of `_get_dependencies` strictly decreases at every memo miss. -/
def missing (files : List SDoc) (st : ResState) : Nat :=
  ((namesOf files).filter (fun n => (lookupMemo st n).isNone)).length

/-- The resolver's run invariant: memo keys are distinct project names, each
key maps to the arena node allocated for it (sources listed in allocation
order, indices enumerating the arena), and every node's targets mapping has
distinct keys. -/
structure ResInv (files : List SDoc) (st : ResState) : Prop where
  memoKeysNodup : (st.memo.map Prod.fst).Nodup
  memoKeysNames : ∀ p ∈ st.memo, p.1 ∈ namesOf files
  arenaSources : st.arena.map DepNode.source = st.memo.map Prod.fst
  memoIdx : st.memo.map Prod.snd = List.range st.arena.length
  targetsNodup : ∀ nd ∈ st.arena, (nd.targets.map Prod.fst).Nodup

/-- A 28-character document text; the node lists below carry the offsets the
tokenizer would report for `\newcommand` and `\usepackage` forms over such a
text. -/
def sampleContent : String := "abcdefghijklmnopqrstuvwxyz01"

/-- Nodes of a definition with a delimited body, laid out like
`\newcommand{\foo}[1]{bar #1}`: the outer macro at offset 0, the name group,
one arg-spec character run, and the body group at offset 20 with length 8. -/
def defnWithBodyNodes : List LNode :=
  [.macroN ("newcommand") 0 11,
   .groupN [.macroN ("foo") 12 5] 11 6,
   .charsN ("[1]") 17 3,
   .groupN [.charsN ("bar #1") 21 6] 20 8]

/-- Nodes of a definition with no delimited body: the arg-spec scan stops at
a comment node, so the node at the stop position is not a group. -/
def defnNoBodyNodes : List LNode :=
  [.macroN ("newcommand") 0 11,
   .groupN [.macroN ("foo") 12 4] 11 6,
   .commentN 17 8]

/-- A `*command` occurrence whose lookahead is a group with a non-macro
first child, followed by a perfectly good `\usepackage` occurrence. -/
def badLookaheadNodes : List LNode :=
  [.macroN ("newcommand") 0 11,
   .groupN [.charsN ("x") 12 1] 11 3,
   .macroN ("usepackage") 20 11,
   .groupN [.charsN ("y") 32 1] 31 3]

/-- A `*command` occurrence whose lookahead is a plain character run. -/
def skipShapeNodes : List LNode :=
  [.macroN ("newcommand") 0 11, .charsN ("[1]") 11 3]

/-- The spec's concrete scenario: `root.tex` importing `child` and `orphan`,
`child.sty` with no imports. -/
def exampleProject : List SDoc :=
  [⟨("root.tex"), [("child"), ("orphan")]⟩, ⟨("child.sty"), []⟩]

/-- The resolver state `resolveAll` produces for `exampleProject`. -/
def exampleState : ResState :=
  ⟨[⟨("root.tex"), [(("child.sty"), some 1), (("orphan.sty"), none)]⟩,
    ⟨("child.sty"), []⟩],
   [(("root.tex"), 0), (("child.sty"), 1)]⟩

/-- A self-importing document: `a.sty` importing `a`. -/
def cycleProject : List SDoc := [⟨("a.sty"), [("a")]⟩]

/-- A diamond: `A.tex` and `B.tex` both import `C`. -/
def diamondProject : List SDoc :=
  [⟨("A.tex"), [("C")]⟩, ⟨("B.tex"), [("C")]⟩, ⟨("C.sty"), []⟩]

/-- The resolver state `resolveAll` produces for `diamondProject`: one node
for `C.sty`, referenced from both importers' targets. -/
def diamondState : ResState :=
  ⟨[⟨("A.tex"), [(("C.sty"), some 1)]⟩, ⟨("C.sty"), []⟩,
    ⟨("B.tex"), [(("C.sty"), some 1)]⟩],
   [(("A.tex"), 0), (("C.sty"), 1), (("B.tex"), 2)]⟩

/-- A dependency node wrapping a single document with no targets. -/
def singleDepNode : LDep := .mk (some [("/"), ("a"), ("b"), ("c.sty")]) []

/-- A dependency node with one resolved child in a sibling directory. -/
def twoDepNode : LDep :=
  .mk (some [("/"), ("a"), ("b"), ("x.sty")])
    [(("y.sty"), some (.mk (some [("/"), ("a"), ("c"), ("y.sty")]) []))]

/-! ## Association-list, memo and counting lemmas -/

theorem dictUpsert_map_fst_mem {α : Type} (m : List (String × α)) (k : String) (v : α)
    (a : String) : a ∈ (dictUpsert m k v).map Prod.fst ↔ a ∈ m.map Prod.fst ∨ a = k := by
  induction m with
  | nil => simp [dictUpsert]
  | cons p rest ih =>
    obtain ⟨k1, v1⟩ := p
    by_cases h : k1 = k
    · subst h; simp [dictUpsert]; tauto
    · simp [dictUpsert, h, ih]; tauto

theorem dictUpsert_map_fst_nodup {α : Type} {m : List (String × α)} {k : String} {v : α}
    (h : (m.map Prod.fst).Nodup) : ((dictUpsert m k v).map Prod.fst).Nodup := by
  induction m with
  | nil => simp [dictUpsert]
  | cons p rest ih =>
    obtain ⟨k1, v1⟩ := p
    simp only [List.map_cons, List.nodup_cons] at h
    by_cases hk : k1 = k
    · subst hk
      simp only [dictUpsert, beq_self_eq_true, if_true, List.map_cons, List.nodup_cons]
      exact ⟨h.1, h.2⟩
    · simp only [dictUpsert]
      rw [if_neg (by simpa using hk)]
      simp only [List.map_cons, List.nodup_cons]
      refine ⟨?_, ih h.2⟩
      intro hmem
      rcases (dictUpsert_map_fst_mem rest k v k1).mp hmem with h4 | h4
      · exact h.1 h4
      · exact hk h4

theorem dictUpsert_mem_snd {α : Type} {m : List (String × α)} {k : String} {v : α} :
    ∀ p ∈ dictUpsert m k v, p ∈ m ∨ p.2 = v := by
  induction m with
  | nil => intro p hp; simp [dictUpsert] at hp; subst hp; right; rfl
  | cons q rest ih =>
    obtain ⟨k1, v1⟩ := q
    intro p hp
    by_cases hk : k1 = k
    · subst hk
      simp [dictUpsert] at hp
      rcases hp with hp | hp
      · right; rw [hp]
      · left; simp [hp]
    · simp [dictUpsert, hk] at hp
      rcases hp with hp | hp
      · left; simp [hp]
      · rcases ih p hp with h | h
        · left; simp [h]
        · right; exact h

theorem listModify_map {α β : Type} (f : α → α) (g : α → β) (h : ∀ a, g (f a) = g a) :
    ∀ (l : List α) (i : Nat), (listModify l i f).map g = l.map g := by
  intro l
  induction l with
  | nil => intro i; rfl
  | cons a rest ih =>
    intro i
    cases i with
    | zero => simp [listModify, h]
    | succ j => simp [listModify, ih]

theorem listModify_length {α : Type} (f : α → α) :
    ∀ (l : List α) (i : Nat), (listModify l i f).length = l.length := by
  intro l
  induction l with
  | nil => intro i; rfl
  | cons a rest ih =>
    intro i
    cases i with
    | zero => simp [listModify]
    | succ j => simp [listModify, ih]

theorem listModify_mem {α : Type} {f : α → α} :
    ∀ {l : List α} {i : Nat}, ∀ nd ∈ listModify l i f, nd ∈ l ∨ ∃ a ∈ l, nd = f a := by
  intro l
  induction l with
  | nil => intro i nd hnd; simp [listModify] at hnd
  | cons a rest ih =>
    intro i nd hnd
    cases i with
    | zero =>
      simp [listModify] at hnd
      rcases hnd with h | h
      · right; exact ⟨a, by simp, h⟩
      · left; simp [h]
    | succ j =>
      simp [listModify] at hnd
      rcases hnd with h | h
      · left; simp [h]
      · rcases ih nd h with h2 | ⟨b, hb, h2⟩
        · left; simp [h2]
        · right; exact ⟨b, by simp [hb], h2⟩

theorem lookupMemo_some_mem {st : ResState} {k : String} {i : Nat}
    (h : lookupMemo st k = some i) : k ∈ st.memo.map Prod.fst := by
  simp only [lookupMemo, Option.map_eq_some'] at h
  obtain ⟨p, hp, hpi⟩ := h
  have hmem := List.mem_of_find?_eq_some hp
  have hkey := List.find?_some hp
  have : p.1 = k := by simpa using hkey
  exact this ▸ List.mem_map_of_mem Prod.fst hmem

theorem lookupMemo_none_iff {st : ResState} {k : String} :
    lookupMemo st k = none ↔ k ∉ st.memo.map Prod.fst := by
  simp only [lookupMemo, Option.map_eq_none', List.find?_eq_none, List.mem_map]
  constructor
  · rintro h ⟨p, hp, hk⟩
    exact (h p hp) (by simpa using hk)
  · intro h p hp
    intro hbeq
    exact h ⟨p, hp, by simpa using hbeq⟩

theorem lookupMemo_mono {st st2 : ResState} {k : String} {i : Nat}
    (hpre : st.memo <+: st2.memo) (h : lookupMemo st k = some i) :
    lookupMemo st2 k = some i := by
  obtain ⟨t, ht⟩ := hpre
  simp only [lookupMemo, Option.map_eq_some'] at h ⊢
  obtain ⟨p, hp, hpi⟩ := h
  exact ⟨p, by rw [← ht, List.find?_append, hp]; rfl, hpi⟩

theorem lookupMemo_allocNode_self {st : ResState} {nm : String}
    (h : lookupMemo st nm = none) :
    lookupMemo (allocNode st nm) nm = some st.arena.length := by
  have hf : st.memo.find? (fun p => p.1 == nm) = none := by
    simpa [lookupMemo, Option.map_eq_none'] using h
  simp [lookupMemo, allocNode, List.find?_append, hf]

theorem lookupMemo_allocNode_ne {st : ResState} {nm k : String} (hne : k ≠ nm) :
    lookupMemo (allocNode st nm) k = lookupMemo st k := by
  have hb : (nm == k) = false := beq_eq_false_iff_ne.mpr (Ne.symm hne)
  simp only [lookupMemo, allocNode, List.find?_append]
  cases hf : st.memo.find? (fun p => p.1 == k) with
  | some p => rfl
  | none => simp [List.find?, hb]

theorem filter_length_mono {α : Type} {l : List α} {p q : α → Bool}
    (h : ∀ x ∈ l, q x = true → p x = true) :
    (l.filter q).length ≤ (l.filter p).length := by
  induction l with
  | nil => simp
  | cons a rest ih =>
    have ih2 := ih (fun x hx => h x (by simp [hx]))
    rw [List.filter_cons, List.filter_cons]
    by_cases hq : q a = true
    · rw [if_pos hq, if_pos (h a (by simp) hq)]
      simpa using ih2
    · rw [if_neg hq]
      cases hp : p a
      · rw [if_neg (by simp)]
        exact ih2
      · rw [if_pos rfl]
        simp only [List.length_cons]
        omega

theorem filter_length_succ {α : Type} :
    ∀ {l : List α}, l.Nodup → ∀ {a : α}, a ∈ l →
    ∀ {p q : α → Bool}, p a = true → q a = false →
    (∀ x ∈ l, x ≠ a → p x = q x) →
    (l.filter q).length + 1 = (l.filter p).length := by
  intro l
  induction l with
  | nil => intro _ a ha; simp at ha
  | cons b rest ih =>
    intro hnd a ha p q hpa hqa hpq
    rcases List.mem_cons.mp ha with hb | hb
    · subst hb
      have hnotin : a ∉ rest := (List.nodup_cons.mp hnd).1
      have heq : rest.filter p = rest.filter q := by
        apply List.filter_congr
        intro x hx
        exact hpq x (by simp [hx]) (fun hxa => hnotin (hxa ▸ hx))
      rw [List.filter_cons, List.filter_cons, if_pos hpa, if_neg (by simp [hqa]), heq]
      simp
    · have hba : b ≠ a := fun hh => (List.nodup_cons.mp hnd).1 (hh ▸ hb)
      have hpb := hpq b (by simp) hba
      have ih2 := ih (List.nodup_cons.mp hnd).2 hb hpa hqa
        (fun x hx hxa => hpq x (by simp [hx]) hxa)
      rw [List.filter_cons, List.filter_cons, ← hpb]
      cases hp : p b
      · rw [if_neg (by simp), if_neg (by simp)]
        exact ih2
      · rw [if_pos rfl, if_pos rfl]
        simp only [List.length_cons]
        omega

theorem missing_addTarget {files : List SDoc} {st : ResState} {id : Nat} {key : String}
    {v : Option Nat} : missing files (addTarget st id key v) = missing files st := rfl

theorem missing_mono {files : List SDoc} {st st2 : ResState}
    (hpre : st.memo <+: st2.memo) : missing files st2 ≤ missing files st := by
  apply filter_length_mono
  intro x _ hx
  simp only [Option.isNone_iff_eq_none] at hx ⊢
  cases h2 : lookupMemo st x with
  | none => rfl
  | some i => rw [lookupMemo_mono hpre h2] at hx; exact hx

theorem missing_allocNode {files : List SDoc} {st : ResState} {nm : String}
    (hnm : nm ∈ namesOf files) (h : lookupMemo st nm = none) :
    missing files (allocNode st nm) + 1 = missing files st := by
  apply filter_length_succ (List.nodup_dedup _) hnm
  · simp [h]
  · simp [lookupMemo_allocNode_self h]
  · intro x _ hx
    simp [lookupMemo_allocNode_ne hx]

theorem missing_lt_fuel {files : List SDoc} {st : ResState} :
    missing files st < files.length + 1 := by
  have h1 : missing files st ≤ (namesOf files).length := List.length_filter_le _ _
  have h2 : (namesOf files).length ≤ (files.map (fun f => f.name)).length :=
    (List.dedup_sublist _).length_le
  simp only [List.length_map] at h2
  omega

theorem resInv_init (files : List SDoc) : ResInv files ⟨[], []⟩ := by
  constructor <;> simp

theorem resInv_addTarget {files : List SDoc} {st : ResState} {id : Nat} {key : String}
    {v : Option Nat} (h : ResInv files st) : ResInv files (addTarget st id key v) := by
  refine ⟨h.memoKeysNodup, h.memoKeysNames, ?_, ?_, ?_⟩
  · show (listModify st.arena id
        (fun nd => DepNode.mk nd.source (dictUpsert nd.targets key v))).map DepNode.source =
      st.memo.map Prod.fst
    rw [listModify_map (fun nd => DepNode.mk nd.source (dictUpsert nd.targets key v))
      DepNode.source (fun a => rfl)]
    exact h.arenaSources
  · show st.memo.map Prod.snd = List.range (listModify st.arena id
      (fun nd => DepNode.mk nd.source (dictUpsert nd.targets key v))).length
    rw [listModify_length]
    exact h.memoIdx
  · intro nd hnd
    rcases listModify_mem nd hnd with h2 | ⟨a, ha, h2⟩
    · exact h.targetsNodup nd h2
    · rw [h2]
      exact dictUpsert_map_fst_nodup (h.targetsNodup a ha)

theorem resInv_allocNode {files : List SDoc} {st : ResState} {nm : String}
    (hI : ResInv files st) (h : lookupMemo st nm = none) (hnm : nm ∈ namesOf files) :
    ResInv files (allocNode st nm) := by
  have hnotin : nm ∉ st.memo.map Prod.fst := lookupMemo_none_iff.mp h
  refine ⟨?_, ?_, ?_, ?_, ?_⟩
  · show ((st.memo ++ [(nm, st.arena.length)]).map Prod.fst).Nodup
    rw [List.map_append]
    refine List.Nodup.append hI.memoKeysNodup (by simp) ?_
    intro a ha hb
    simp only [List.map_cons, List.map_nil, List.mem_singleton] at hb
    exact hnotin (hb ▸ ha)
  · intro p hp
    rcases List.mem_append.mp hp with h2 | h2
    · exact hI.memoKeysNames p h2
    · simp only [List.mem_singleton] at h2
      rw [h2]
      exact hnm
  · show (st.arena ++ [DepNode.mk nm []]).map DepNode.source =
      (st.memo ++ [(nm, st.arena.length)]).map Prod.fst
    rw [List.map_append, List.map_append, hI.arenaSources]
    rfl
  · show (st.memo ++ [(nm, st.arena.length)]).map Prod.snd =
      List.range (st.arena ++ [DepNode.mk nm []]).length
    rw [List.map_append, hI.memoIdx, List.length_append]
    simp [List.range_succ]
  · intro nd hnd
    rcases List.mem_append.mp hnd with h2 | h2
    · exact hI.targetsNodup nd h2
    · simp only [List.mem_singleton] at h2
      rw [h2]
      simp

theorem findDoc_mem {files : List SDoc} {key : String} {d : SDoc}
    (h : findDoc files key = some d) : d ∈ files := by
  simp only [findDoc, Option.map_eq_some'] at h
  obtain ⟨p, hp, hpd⟩ := h
  have hmem := List.mem_of_find?_eq_some hp
  have hval : ∀ q ∈ filesByName files, q.2 ∈ files := by
    have : ∀ (fs : List SDoc) (m : List (String × SDoc)),
        (∀ q ∈ m, q.2 ∈ files) → (∀ f ∈ fs, f ∈ files) →
        ∀ q ∈ fs.foldl (fun m f => dictUpsert m f.name f) m, q.2 ∈ files := by
      intro fs
      induction fs with
      | nil => intro m hm _ q hq; exact hm q hq
      | cons f rest ih =>
        intro m hm hfs q hq
        refine ih (dictUpsert m f.name f) ?_ (fun g hg => hfs g (by simp [hg])) q hq
        intro r hr
        rcases dictUpsert_mem_snd r hr with h2 | h2
        · exact hm r h2
        · rw [h2]; exact hfs f (by simp)
    intro q hq
    exact this files [] (by simp) (fun f hf => hf) q hq
  rw [← hpd]
  exact hval p hmem

theorem mem_namesOf {files : List SDoc} {f : SDoc} (h : f ∈ files) :
    f.name ∈ namesOf files :=
  List.mem_dedup.mpr (List.mem_map_of_mem _ h)

theorem resolveGo_ok (files : List SDoc) (fuel : Nat)
    (IH : ∀ (src : SDoc) (st : ResState), src.name ∈ namesOf files →
      ResInv files st → missing files st < fuel →
      ∃ i st2, resolveDoc files fuel src st = some (i, st2) ∧ ResInv files st2 ∧
        st.memo <+: st2.memo ∧ src.name ∈ st2.memo.map Prod.fst) :
    ∀ (imps : List String) (j : Nat) (st : ResState),
      ResInv files st → missing files st < fuel →
      ∃ st2, resolveGo files (resolveDoc files fuel) j imps st = some st2 ∧
        ResInv files st2 ∧ st.memo <+: st2.memo := by
  intro imps
  induction imps with
  | nil =>
    intro j st hInv _
    exact ⟨st, rfl, hInv, List.prefix_rfl⟩
  | cons imp rest ihRest =>
    intro j st hInv hmiss
    by_cases hf : ∃ targ, findDoc files (imp ++ (".sty")) = some targ
    · obtain ⟨targ, hft⟩ := hf
      have htn : targ.name ∈ namesOf files := mem_namesOf (findDoc_mem hft)
      obtain ⟨cid, stA, hr, hInvA, hpreA, _⟩ := IH targ st htn hInv hmiss
      have hmissA : missing files (addTarget stA j (imp ++ (".sty")) (some cid)) < fuel := by
        rw [missing_addTarget]
        exact lt_of_le_of_lt (missing_mono hpreA) hmiss
      obtain ⟨st2, h2, hInv2, hpre2⟩ :=
        ihRest j (addTarget stA j (imp ++ (".sty")) (some cid)) (resInv_addTarget hInvA) hmissA
      refine ⟨st2, ?_, hInv2, ?_⟩
      · simp only [resolveGo, hft, hr]
        exact h2
      · exact List.IsPrefix.trans hpreA hpre2
    · have hfn : findDoc files (imp ++ (".sty")) = none := by
        cases hx : findDoc files (imp ++ (".sty")) with
        | none => rfl
        | some targ => exact absurd ⟨targ, hx⟩ hf
      have hmissA : missing files (addTarget st j (imp ++ (".sty")) none) < fuel := by
        rw [missing_addTarget]; exact hmiss
      obtain ⟨st2, h2, hInv2, hpre2⟩ :=
        ihRest j (addTarget st j (imp ++ (".sty")) none) (resInv_addTarget hInv) hmissA
      refine ⟨st2, ?_, hInv2, hpre2⟩
      simp only [resolveGo, hfn]
      exact h2

theorem resolveDoc_ok :
    ∀ (fuel : Nat) (files : List SDoc) (src : SDoc) (st : ResState),
      src.name ∈ namesOf files → ResInv files st → missing files st < fuel →
      ∃ i st2, resolveDoc files fuel src st = some (i, st2) ∧ ResInv files st2 ∧
        st.memo <+: st2.memo ∧ src.name ∈ st2.memo.map Prod.fst := by
  intro fuel
  induction fuel with
  | zero => intro files src st _ _ hmiss; omega
  | succ fuel ih =>
    intro files src st hsrc hInv hmiss
    cases hl : lookupMemo st src.name with
    | some i =>
      refine ⟨i, st, ?_, hInv, List.prefix_rfl, lookupMemo_some_mem hl⟩
      simp [resolveDoc, hl]
    | none =>
      have hm1 := @missing_allocNode files st src.name hsrc hl
      have hmissA : missing files (allocNode st src.name) < fuel := by omega
      have hInvA : ResInv files (allocNode st src.name) := resInv_allocNode hInv hl hsrc
      obtain ⟨st2, hgo, hInv2, hpre2⟩ :=
        resolveGo_ok files fuel (ih files) src.imports st.arena.length
          (allocNode st src.name) hInvA hmissA
      have hpre1 : st.memo <+: (allocNode st src.name).memo := ⟨_, rfl⟩
      refine ⟨st.arena.length, st2, ?_, hInv2, List.IsPrefix.trans hpre1 hpre2, ?_⟩
      · simp only [resolveDoc, hl]
        rw [hgo]
      · have hmem1 : src.name ∈ (allocNode st src.name).memo.map Prod.fst := by
          simp [allocNode]
        have hsub : (allocNode st src.name).memo.map Prod.fst ⊆ st2.memo.map Prod.fst :=
          fun a ha => by
            rcases List.mem_map.mp ha with ⟨q, hq, hqa⟩
            exact hqa ▸ List.mem_map_of_mem Prod.fst (hpre2.subset hq)
        exact hsub hmem1

theorem resolveFold_ok (files : List SDoc) :
    ∀ (fs : List SDoc) (st : ResState), (∀ f ∈ fs, f.name ∈ namesOf files) →
      ResInv files st →
      ∃ st2,
        fs.foldl (fun acc f =>
          acc.bind (fun s => (resolveDoc files (files.length + 1) f s).map (fun p => p.2)))
          (some st) = some st2 ∧
        ResInv files st2 ∧ st.memo <+: st2.memo ∧
        ∀ f ∈ fs, f.name ∈ st2.memo.map Prod.fst := by
  intro fs
  induction fs with
  | nil =>
    intro st _ hInv
    exact ⟨st, rfl, hInv, List.prefix_rfl, by simp⟩
  | cons f rest ih =>
    intro st hfs hInv
    obtain ⟨i, stA, hr, hInvA, hpreA, hmemA⟩ :=
      resolveDoc_ok (files.length + 1) files f st (hfs f (by simp)) hInv missing_lt_fuel
    obtain ⟨st2, h2, hInv2, hpre2, hmem2⟩ :=
      ih stA (fun g hg => hfs g (by simp [hg])) hInvA
    refine ⟨st2, ?_, hInv2, List.IsPrefix.trans hpreA hpre2, ?_⟩
    · rw [List.foldl_cons]
      have : (some st).bind (fun s =>
          (resolveDoc files (files.length + 1) f s).map (fun p => p.2)) = some stA := by
        simp [hr]
      rw [this]
      exact h2
    · intro g hg
      rcases List.mem_cons.mp hg with hgf | hgf
      · subst hgf
        have hsub : stA.memo.map Prod.fst ⊆ st2.memo.map Prod.fst := fun a ha => by
          rcases List.mem_map.mp ha with ⟨q, hq, hqa⟩
          exact hqa ▸ List.mem_map_of_mem Prod.fst (hpre2.subset hq)
        exact hsub hmemA
      · exact hmem2 g hgf

theorem resolveAll_ok (files : List SDoc) :
    ∃ st, resolveAll files = some st ∧ ResInv files st ∧
      ∀ f ∈ files, f.name ∈ st.memo.map Prod.fst := by
  obtain ⟨st, h, hInv, _, hmem⟩ :=
    resolveFold_ok files files ⟨[], []⟩ (fun f hf => mem_namesOf hf) (resInv_init files)
  exact ⟨st, h, hInv, hmem⟩

/-! ## Longest-common-prefix lemmas for base-directory normalization -/

theorem lcp_nil_right : ∀ a : LPath, lcp a [] = [] := by
  intro a
  cases a <;> rfl

theorem lcp_cons_self (x : String) (as bs : LPath) :
    lcp (x :: as) (x :: bs) = x :: lcp as bs := by
  simp [lcp]

theorem lcp_cons_of_ne {x y : String} (h : x ≠ y) (as bs : LPath) :
    lcp (x :: as) (y :: bs) = [] := by
  simp [lcp, h]

theorem lcp_prefix_left : ∀ a b : LPath, lcp a b <+: a := by
  intro a
  induction a with
  | nil => intro b; cases b <;> simp [lcp]
  | cons x xs ih =>
    intro b
    cases b with
    | nil => simp [lcp]
    | cons y ys =>
      by_cases h : x = y
      · subst h
        rw [lcp_cons_self, List.cons_prefix_cons]
        exact ⟨rfl, ih ys⟩
      · rw [lcp_cons_of_ne h]
        exact List.nil_prefix

theorem lcp_prefix_right : ∀ a b : LPath, lcp a b <+: b := by
  intro a
  induction a with
  | nil => intro b; cases b <;> simp [lcp]
  | cons x xs ih =>
    intro b
    cases b with
    | nil => simp [lcp]
    | cons y ys =>
      by_cases h : x = y
      · subst h
        rw [lcp_cons_self, List.cons_prefix_cons]
        exact ⟨rfl, ih ys⟩
      · rw [lcp_cons_of_ne h]
        exact List.nil_prefix

theorem prefix_lcp : ∀ c a b : LPath, c <+: a → c <+: b → c <+: lcp a b := by
  intro c
  induction c with
  | nil => intro a b _ _; exact List.nil_prefix
  | cons x xs ih =>
    intro a b ha hb
    cases a with
    | nil => exact absurd ha (by simp)
    | cons y ys =>
      cases b with
      | nil => exact absurd hb (by simp)
      | cons z zs =>
        rw [List.cons_prefix_cons] at ha hb
        obtain ⟨hxy, ha2⟩ := ha
        obtain ⟨hxz, hb2⟩ := hb
        subst hxy
        subst hxz
        rw [lcp_cons_self, List.cons_prefix_cons]
        exact ⟨rfl, ih ys zs ha2 hb2⟩

theorem lcp_head_same {a b : LPath} {x : String} (ha : a.head? = some x)
    (hb : b.head? = some x) : (lcp a b).head? = some x := by
  cases a with
  | nil => simp at ha
  | cons y ys =>
    cases b with
    | nil => simp at hb
    | cons z zs =>
      simp only [List.head?_cons, Option.some.injEq] at ha hb
      subst ha
      subst hb
      rw [lcp_cons_self]
      rfl

theorem lcp_eq_of_pre : ∀ {rel base : LPath}, rel <+: base → lcp base rel = rel := by
  intro rel
  induction rel with
  | nil => intro base _; cases base <;> rfl
  | cons x xs ih =>
    intro base h
    cases base with
    | nil => exact absurd h (by simp)
    | cons y ys =>
      rw [List.cons_prefix_cons] at h
      obtain ⟨hxy, h2⟩ := h
      subst hxy
      rw [lcp_cons_self, ih h2]

theorem lcp_dropLast_of_not_pre :
    ∀ {rel base : LPath}, ¬(rel <+: base) → lcp base rel.dropLast = lcp base rel := by
  intro rel
  induction rel with
  | nil => intro base h; exact absurd List.nil_prefix h
  | cons x rest ih =>
    intro base h
    cases rest with
    | nil =>
      cases base with
      | nil => rfl
      | cons y ys =>
        have hxy : x ≠ y := fun hh => h (by rw [List.cons_prefix_cons]; exact ⟨hh, List.nil_prefix⟩)
        simp only [List.dropLast_single]
        rw [lcp_cons_of_ne (fun hyx => hxy hyx.symm)]
        rfl
    | cons m t =>
      cases base with
      | nil => rfl
      | cons y ys =>
        by_cases hxy : x = y
        · subst hxy
          have hnp : ¬((m :: t) <+: ys) := fun hp =>
            h (List.cons_prefix_cons.mpr ⟨rfl, hp⟩)
          rw [List.dropLast_cons₂, lcp_cons_self, lcp_cons_self, ih hnp]
        · rw [List.dropLast_cons₂, lcp_cons_of_ne (fun hyx => hxy hyx.symm),
            lcp_cons_of_ne (fun hyx => hxy hyx.symm)]

theorem walkUpAux_eq_lcp : ∀ (k : Nat) (base rel : LPath), rel.length ≤ k →
    rel.head? = some ("/") → base.head? = some ("/") →
    walkUpAux k base rel = lcp base rel := by
  intro k
  induction k with
  | zero =>
    intro base rel hlen hrel _
    cases rel with
    | nil => simp at hrel
    | cons a as => simp at hlen
  | succ k ih =>
    intro base rel hlen hrel hbase
    by_cases h1 : 1 < rel.length
    · rw [walkUpAux, if_pos h1]
      by_cases h2 : rel.isPrefixOf base = true
      · rw [if_pos h2]
        exact (lcp_eq_of_pre (List.isPrefixOf_iff_prefix.mp h2)).symm
      · rw [if_neg h2]
        have hnp : ¬(rel <+: base) := fun hp => h2 (List.isPrefixOf_iff_prefix.mpr hp)
        have hdh : rel.dropLast.head? = some ("/") := by
          rw [List.head?_dropLast, if_pos h1]
          exact hrel
        rw [ih base rel.dropLast (by rw [List.length_dropLast]; omega) hdh hbase]
        exact lcp_dropLast_of_not_pre hnp
    · rw [walkUpAux, if_neg h1]
      have hr : rel = [("/")] := by
        cases rel with
        | nil => simp at hrel
        | cons a as =>
          simp only [List.head?_cons, Option.some.injEq] at hrel
          subst hrel
          cases as with
          | nil => rfl
          | cons b t => simp at h1
      subst hr
      cases base with
      | nil => simp at hbase
      | cons y ys =>
        simp only [List.head?_cons, Option.some.injEq] at hbase
        subst hbase
        rw [lcp_cons_self, lcp_nil_right]

theorem walkUp_eq_lcp {base rel : LPath} (hrel : rel.head? = some ("/"))
    (hbase : base.head? = some ("/")) : walkUp base rel = lcp base rel :=
  walkUpAux_eq_lcp rel.length base rel (Nat.le_refl _) hrel hbase

theorem pabs_of_abs {cwd p : LPath} (h : p.head? = some ("/")) : pabs cwd p = p := by
  rw [pabs, if_pos h]

theorem foldl_walkUp_eq_lcp (cwd : LPath) :
    ∀ (l : List LPath) (b : LPath), b.head? = some ("/") →
      (∀ p ∈ l, p.head? = some ("/")) →
      l.foldl (fun base rel => walkUp base (pabs cwd rel)) b = l.foldl lcp b ∧
      (l.foldl lcp b).head? = some ("/") := by
  intro l
  induction l with
  | nil => intro b hb _; exact ⟨rfl, hb⟩
  | cons p rest ih =>
    intro b hb hl
    have hp : p.head? = some ("/") := hl p (by simp)
    have hstep : walkUp b (pabs cwd p) = lcp b p := by
      rw [pabs_of_abs hp]
      exact walkUp_eq_lcp hp hb
    have hlcp : (lcp b p).head? = some ("/") := lcp_head_same hb hp
    obtain ⟨h1, h2⟩ := ih (lcp b p) hlcp (fun q hq => hl q (by simp [hq]))
    constructor
    · rw [List.foldl_cons, List.foldl_cons, hstep, h1]
    · rw [List.foldl_cons]
      exact h2

theorem foldl_lcp_pre : ∀ (l : List LPath) (b : LPath),
    (l.foldl lcp b <+: b) ∧ ∀ x ∈ l, l.foldl lcp b <+: x := by
  intro l
  induction l with
  | nil => intro b; exact ⟨List.prefix_rfl, by simp⟩
  | cons p rest ih =>
    intro b
    obtain ⟨h1, h2⟩ := ih (lcp b p)
    rw [List.foldl_cons]
    refine ⟨List.IsPrefix.trans h1 (lcp_prefix_left b p), ?_⟩
    intro x hx
    rcases List.mem_cons.mp hx with hxp | hxp
    · subst hxp
      exact List.IsPrefix.trans h1 (lcp_prefix_right b x)
    · exact h2 x hxp

theorem prefix_foldl_lcp : ∀ (l : List LPath) (b c : LPath),
    c <+: b → (∀ x ∈ l, c <+: x) → c <+: l.foldl lcp b := by
  intro l
  induction l with
  | nil => intro b c hb _; exact hb
  | cons p rest ih =>
    intro b c hb hl
    rw [List.foldl_cons]
    exact ih (lcp b p) c (prefix_lcp c b p hb (hl p (by simp)))
      (fun x hx => hl x (by simp [hx]))

theorem insertByLen_perm (p : LPath) : ∀ l : List LPath, (insertByLen p l).Perm (p :: l) := by
  intro l
  induction l with
  | nil => exact List.Perm.refl _
  | cons q qs ih =>
    rw [insertByLen]
    by_cases h : p.length < q.length
    · rw [if_pos h]
    · rw [if_neg h]
      exact List.Perm.trans (List.Perm.cons q ih) (List.Perm.swap p q qs)

theorem sortByLen_perm : ∀ l : List LPath, (sortByLen l).Perm l := by
  intro l
  induction l with
  | nil => exact List.Perm.refl _
  | cons p ps ih =>
    rw [sortByLen]
    exact List.Perm.trans (insertByLen_perm p (sortByLen ps)) (List.Perm.cons p ih)

/-! ## Claim theorems -/

/-- C1 counterexample: in the scenario with `root.tex` importing `child` and
`orphan` and `child.sty` present, the synthesized root node's targets key
list is `[root.tex, child.sty]`, not `{root.tex}` as claimed: the
transitively imported `child.sty` appears as a separate root entry because
`LatexProject.dependencies` wraps the entire memo map in the root node. -/
theorem c1_root_targets_counterexample :
    rootKeyList exampleProject = [("root.tex"), ("child.sty")] ∧
    rootKeyList exampleProject ≠ [("root.tex")] ∧
    ("child.sty") ∈ rootKeyList exampleProject :=
  ⟨rfl, by decide, by decide⟩

/-- C1 (amended): the synthesized root dependency node's targets contains an
entry for every document of the project — top-level documents and documents
reachable only as transitive imports alike (the root wraps the whole memo
map); its key set equals the set of project file names. -/
theorem c1_root_targets_amended :
    ∀ (files : List SDoc) (st : ResState), resolveAll files = some st →
      ∀ n, n ∈ (rootTargets st).map Prod.fst ↔ n ∈ files.map SDoc.name := by
  intro files st h
  obtain ⟨st0, h0, hInv, hmem⟩ := resolveAll_ok files
  rw [h] at h0
  injection h0 with h0
  subst h0
  intro n
  have hroot : (rootTargets st).map Prod.fst = st.memo.map Prod.fst := by
    simp [rootTargets]
  rw [hroot]
  constructor
  · intro hn
    rcases List.mem_map.mp hn with ⟨p, hp, hpn⟩
    have hnm := hInv.memoKeysNames p hp
    rw [hpn] at hnm
    exact List.mem_dedup.mp hnm
  · intro hn
    rcases List.mem_map.mp hn with ⟨f, hf, hfn⟩
    exact hfn ▸ hmem f hf

/-- C1 witness: the amended theorem applied to the concrete scenario at the
transitively imported document `child.sty`. -/
theorem c1_root_targets_witness :
    ("child.sty") ∈ (rootTargets exampleState).map Prod.fst ↔
      ("child.sty") ∈ exampleProject.map SDoc.name :=
  c1_root_targets_amended exampleProject exampleState rfl ("child.sty")

/-- C2 (code bug): for a recognized definition with a delimited body the
span runs from the outer macro node's offset (0) to the end of the body
group (20 + 8) and the raw text is the corresponding slice; but for a
recognized occurrence with no delimited body, `NewCommand.span` evaluates
`body_node.pos` on an absent body, so extraction raises `AttributeError`
instead of producing a `MacroDefinition` with absent body — the `span`
computation itself is total only when a body is present. -/
theorem c2_definition_span_code_bug :
    extract sampleContent defnWithBodyNodes =
      (.ok ([], [(("foo"),
        ⟨0, ("foo"), [.charsN ("[1]") 17 3], some (20, 8),
         strSlice sampleContent 0 (20 + 8)⟩)]), []) ∧
    ncSpan 0 (some (20, 8)) = Except.ok (0, 20 + 8) ∧
    ncSpan 0 none = Except.error PyErr.attributeError ∧
    extract sampleContent defnNoBodyNodes = (.error .attributeError, []) :=
  ⟨rfl, rfl, rfl, rfl⟩

/-- C3 counterexample: on a `*command` whose lookahead is a group with a
non-macro first child, the claim's "no exception escapes" fails — the
extraction result is an escaping `ParseError`, so the later well-formed
`\usepackage` occurrence is not extracted either. -/
theorem c3_unsupported_shape_counterexample :
    ¬((∃ r, (extract sampleContent badLookaheadNodes).1 = Except.ok r) ∧
      (extract sampleContent badLookaheadNodes).2 = []) := by
  rintro ⟨⟨r, h⟩, -⟩
  rw [show (extract sampleContent badLookaheadNodes).1 =
    Except.error PyErr.parseError from rfl] at h
  exact Except.noConfusion h

/-- C3 (amended): when the lookahead node is *not a group at all*, the
occurrence is skipped with only an informational log entry (result
`Except.ok none`, nothing recorded, scan continues); but when the lookahead
is a group whose first child is not a macro node, a `ParseError` is raised
that escapes `_get_package_objects` and aborts the document's extraction
with no failure recorded. -/
theorem c3_unsupported_shape_amended :
    (∀ (content : String) (nodes : List LNode) (nix : Nat) (nn : LNode),
      nodes.get? (nix + 1) = some nn → nn.isGroup = false →
      parseCommand content nodes nix = Except.ok none) ∧
    extract sampleContent badLookaheadNodes = (Except.error PyErr.parseError, []) := by
  constructor
  · intro content nodes nix nn h hng
    have h2 : nodes[nix + 1]? = some nn := by simpa using h
    cases nn with
    | groupN children p l => simp [LNode.isGroup] at hng
    | macroN nm p l => simp [parseCommand, getNode, h2, Bind.bind, Except.bind]
    | charsN s p l => simp [parseCommand, getNode, h2, Bind.bind, Except.bind]
    | commentN p l => simp [parseCommand, getNode, h2, Bind.bind, Except.bind]
  · rfl

/-- C3 witness: the amended skip behavior at a concrete non-group
lookahead. -/
theorem c3_unsupported_shape_witness :
    parseCommand sampleContent skipShapeNodes 0 = Except.ok none :=
  c3_unsupported_shape_amended.1 sampleContent skipShapeNodes 0
    (LNode.charsN ("[1]") 11 3) rfl rfl

/-- C4 counterexample: a `*command` occurrence at the last index (lookahead
out of range) does not produce a recorded failure with a continuing scan —
instead the `IndexError` escapes and the failure list stays empty. -/
theorem c4_lookahead_counterexample :
    ¬((∃ r, (extract sampleContent [LNode.macroN ("newcommand") 0 11]).1 = Except.ok r) ∧
      (extract sampleContent [LNode.macroN ("newcommand") 0 11]).2 ≠ []) :=
  fun h => h.2 rfl

/-- C4 (amended): an out-of-range lookahead raises `IndexError` (not
`ParseError`); for a `usepackage` occurrence it is caught, recorded on the
failure list, and the scan completes normally, while for a `*command`
occurrence it escapes and aborts the document's extraction with nothing
recorded. -/
theorem c4_lookahead_amended (p l : Nat) :
    extract sampleContent [LNode.macroN ("usepackage") p l] =
      (.ok ([], []), [.indexError]) ∧
    extract sampleContent [LNode.macroN ("newcommand") p l] =
      (.error .indexError, []) :=
  ⟨rfl, rfl⟩

/-- C5 counterexample: for a node wrapping a single document at
`/a/b/c.sty`, `base_dir` returns the document's own file path, not the
deepest common ancestor *directory* `/a/b`. -/
theorem c5_base_dir_counterexample :
    baseDir [] singleDepNode = some [("/"), ("a"), ("b"), ("c.sty")] ∧
    baseDir [] singleDepNode ≠ some [("/"), ("a"), ("b")] :=
  ⟨rfl, by decide⟩

/-- C5 (amended): for every dependency node wrapping a concrete document all
of whose reachable documents have absolute paths, `base_dir` is the deepest
common ancestor *path* of the reachable documents' paths — a common prefix
of every reachable path of maximal length (hence the file itself when only
one document is reachable, rather than a proper ancestor directory); it is
absent exactly on the root marker. -/
theorem c5_base_dir_amended (cwd srcPath : LPath) (tgts : List (String × Option LDep))
    (habs : ∀ p ∈ LDep.getFiles (.mk (some srcPath) tgts), p.head? = some ("/")) :
    ∃ L, baseDir cwd (.mk (some srcPath) tgts) = some L ∧
      (∀ p ∈ LDep.getFiles (.mk (some srcPath) tgts), L <+: p) ∧
      ∀ c, (∀ p ∈ LDep.getFiles (.mk (some srcPath) tgts), c <+: p) →
        c.length ≤ L.length := by
  have hgf : LDep.getFiles (.mk (some srcPath) tgts) = srcPath :: getFilesT tgts := rfl
  have hsrc : srcPath ∈ LDep.getFiles (.mk (some srcPath) tgts) := by rw [hgf]; simp
  have hsabs : srcPath.head? = some ("/") := habs srcPath hsrc
  have hperm : (sortByLen (LDep.getFiles (.mk (some srcPath) tgts))).Perm
      (LDep.getFiles (.mk (some srcPath) tgts)) := sortByLen_perm _
  have hne : (sortByLen (LDep.getFiles (.mk (some srcPath) tgts))).isEmpty = false := by
    have hl : (sortByLen (LDep.getFiles (.mk (some srcPath) tgts))).length =
        (LDep.getFiles (.mk (some srcPath) tgts)).length := hperm.length_eq
    cases hsort : sortByLen (LDep.getFiles (.mk (some srcPath) tgts)) with
    | nil => rw [hsort, hgf] at hl; simp at hl
    | cons a as => rfl
  have habs2 : ∀ p ∈ sortByLen (LDep.getFiles (.mk (some srcPath) tgts)),
      p.head? = some ("/") := fun p hp => habs p (hperm.mem_iff.mp hp)
  obtain ⟨hfold, _⟩ := foldl_walkUp_eq_lcp cwd
    (sortByLen (LDep.getFiles (.mk (some srcPath) tgts))) srcPath hsabs habs2
  have hbd : baseDir cwd (.mk (some srcPath) tgts) =
      some ((sortByLen (LDep.getFiles (.mk (some srcPath) tgts))).foldl lcp srcPath) := by
    rw [show baseDir cwd (.mk (some srcPath) tgts) =
      (if (sortByLen (LDep.getFiles (.mk (some srcPath) tgts))).isEmpty then none
       else some ((sortByLen (LDep.getFiles (.mk (some srcPath) tgts))).foldl
         (fun base rel => walkUp base (pabs cwd rel)) srcPath)) from rfl]
    rw [if_neg (by rw [hne]; exact Bool.false_ne_true), hfold]
  refine ⟨(sortByLen (LDep.getFiles (.mk (some srcPath) tgts))).foldl lcp srcPath,
    hbd, ?_, ?_⟩
  · intro p hp
    obtain ⟨_, h2⟩ := foldl_lcp_pre
      (sortByLen (LDep.getFiles (.mk (some srcPath) tgts))) srcPath
    exact h2 p (hperm.mem_iff.mpr hp)
  · intro c hc
    have h3 : c <+: (sortByLen (LDep.getFiles (.mk (some srcPath) tgts))).foldl lcp srcPath :=
      prefix_foldl_lcp (sortByLen (LDep.getFiles (.mk (some srcPath) tgts))) srcPath c
        (hc srcPath hsrc) (fun x hx => hc x (hperm.mem_iff.mp hx))
    exact h3.length_le

/-- C5 witness: the amended theorem applied to a two-document node with
absolute paths under `/a`. -/
theorem c5_base_dir_witness :
    (∀ p ∈ LDep.getFiles twoDepNode, p.head? = some ("/")) ∧
    (∃ L, baseDir [] twoDepNode = some L ∧
      (∀ p ∈ LDep.getFiles twoDepNode, L <+: p) ∧
      ∀ c, (∀ p ∈ LDep.getFiles twoDepNode, c <+: p) → c.length ≤ L.length) :=
  ⟨by decide, c5_base_dir_amended [] [("/"), ("a"), ("b"), ("x.sty")]
    [(("y.sty"), some (.mk (some [("/"), ("a"), ("c"), ("y.sty")]) []))] (by decide)⟩

/-- C6: dependency resolution terminates for every finite project — fuel
`files.length + 1` never runs out, because a node is memoized before
its imports are expanded — and every allocated node's targets mapping has
distinct keys; in particular a direct self-import (`a.sty` importing `a`)
resolves to a single node whose one target is itself. -/
theorem c6_resolution_terminates :
    (∀ files : List SDoc, ∃ st, resolveAll files = some st ∧
      ∀ nd ∈ st.arena, (nd.targets.map Prod.fst).Nodup) ∧
    resolveAll cycleProject =
      some ⟨[⟨("a.sty"), [(("a.sty"), some 0)]⟩], [(("a.sty"), 0)]⟩ := by
  constructor
  · intro files
    obtain ⟨st, h, hInv, _⟩ := resolveAll_ok files
    exact ⟨st, h, hInv.targetsNodup⟩
  · rfl

/-- C7: within one resolution run there is exactly one dependency node per
source document: any two arena indices holding nodes with the same source
are equal, so diamond importers share the one memoized instance. -/
theorem c7_shared_node_unique (files : List SDoc) (st : ResState)
    (h : resolveAll files = some st) (i j : Nat) (hi : i < st.arena.length)
    (hj : j < st.arena.length)
    (hsrc : (st.arena.get ⟨i, hi⟩).source = (st.arena.get ⟨j, hj⟩).source) : i = j := by
  obtain ⟨st0, h0, hInv, _⟩ := resolveAll_ok files
  rw [h] at h0
  injection h0 with h0
  subst h0
  have hnd : (st.arena.map DepNode.source).Nodup := by
    rw [hInv.arenaSources]; exact hInv.memoKeysNodup
  have hmi : i < (st.arena.map DepNode.source).length := by simpa using hi
  have hmj : j < (st.arena.map DepNode.source).length := by simpa using hj
  refine (@List.Nodup.getElem_inj_iff _ _ hnd i hmi j hmj).mp ?_
  rw [List.getElem_map, List.getElem_map]
  simpa [List.get_eq_getElem] using hsrc

/-- C7 witness: in the diamond project, the importers `A.tex` (node 0) and
`B.tex` (node 2) both store node index 1 under `C.sty`, and the uniqueness
theorem applies at the shared node. -/
theorem c7_shared_node_witness :
    (diamondState.arena.get? 0).map DepNode.targets = some [(("C.sty"), some 1)] ∧
    (diamondState.arena.get? 2).map DepNode.targets = some [(("C.sty"), some 1)] ∧
    (1 : Nat) = 1 :=
  ⟨rfl, rfl, c7_shared_node_unique diamondProject diamondState rfl 1 1
    (by decide) (by decide) rfl⟩

/-- C8: two successfully parsed `\usepackage` occurrences of the same name
leave exactly one entry for that name, holding the second occurrence's
declaration offset, with no failure recorded; the declaration offset is the
second macro node's offset. -/
theorem c8_usepackage_last_wins (x content : String)
    (p1 l1 cp1 cl1 gp1 gl1 p2 l2 cp2 cl2 gp2 gl2 : Nat) :
    extract content
      [.macroN ("usepackage") p1 l1,
       .groupN [.charsN x cp1 cl1] gp1 gl1,
       .macroN ("usepackage") p2 l2,
       .groupN [.charsN x cp2 cl2] gp2 gl2] =
      (.ok ([(x, ⟨p2, none, x, cp2, cl2⟩)], []), []) ∧
    (⟨p2, none, x, cp2, cl2⟩ : UsePackage).span.1 = p2 := by
  constructor
  · simp [extract, extractGo, parsePackage, getNode, getCharNode, gcnStep, dictUpsert,
      strEndsWith, LNode.isGroup, LNode.position, Bind.bind, Except.bind, beq_self_eq_true]
  · rfl

/-- C9: computing the package-object pair on a fresh document reads the text
exactly once and caches imports and definitions jointly; a second access
returns the identical cached pair and state, with the read count still 1. -/
theorem c9_joint_cache_read_once (text : String) (nodesOf : String → List LNode)
    (r : List (String × UsePackage) × List (String × NewCommand))
    (h : (extract text (nodesOf text)).1 = Except.ok r) :
    (getPackageObjects text nodesOf DocState.init).1 = Except.ok r ∧
    (getPackageObjects text nodesOf DocState.init).2.pkgCache = some r ∧
    (getPackageObjects text nodesOf DocState.init).2.readCount = 1 ∧
    getPackageObjects text nodesOf (getPackageObjects text nodesOf DocState.init).2 =
      (Except.ok r, (getPackageObjects text nodesOf DocState.init).2) := by
  rcases hE : extract text (nodesOf text) with ⟨res, efails⟩
  rw [hE] at h
  have hres : res = Except.ok r := h
  subst hres
  have h1 : getPackageObjects text nodesOf DocState.init =
      (Except.ok r, ⟨some text, some r, [] ++ efails, 1⟩) := by
    simp [getPackageObjects, DocState.init, readContent, hE]
  rw [h1]
  exact ⟨rfl, rfl, rfl, rfl⟩

/-- C9 witness: the cache theorem applied to the empty document with an
empty node sequence. -/
theorem c9_joint_cache_witness :
    (getPackageObjects ("") (fun _ => []) DocState.init).1 = Except.ok ([], []) ∧
    (getPackageObjects ("") (fun _ => []) DocState.init).2.pkgCache = some ([], []) ∧
    (getPackageObjects ("") (fun _ => []) DocState.init).2.readCount = 1 ∧
    getPackageObjects ("") (fun _ => [])
        (getPackageObjects ("") (fun _ => []) DocState.init).2 =
      (Except.ok ([], []), (getPackageObjects ("") (fun _ => []) DocState.init).2) :=
  c9_joint_cache_read_once ("") (fun _ => []) ([], []) rfl

/-- C10: the synthesized root node's orphans are always empty — every value
in the root's targets is a resolved memoized node, never the absence
marker. -/
theorem c10_root_orphans_empty (files : List SDoc) (st : ResState)
    (h : resolveAll files = some st) : orphansOf (rootTargets st) = [] := by
  simp [orphansOf, rootTargets, List.filter_map]

/-- C10 witness: the root-orphans theorem applied to the concrete example
project, whose only absence marker sits on `root.tex`'s own node, not the
root. -/
theorem c10_root_orphans_witness : orphansOf (rootTargets exampleState) = [] :=
  c10_root_orphans_empty exampleProject exampleState rfl
